import Mathlib

/-!
Verification of the skills fetch-and-merge pipeline
(scripts/utils.py, scripts/github_fetcher.py, scripts/skill_processor.py,
scripts/marketplace_updater.py, scripts/fetch_external_skills.py).

Shallow embedding conventions:
- pure Python fragments become executable Lean functions over the same data;
- filesystem / network effects are modelled by explicit oracles (Bool fields
  recording whether a given external call succeeds) and by returning the list
  of performed events or written files;
- Python dicts keyed by strings are modelled as association lists in
  insertion order (a key update keeps the key's original position, as
  Python dicts do);
- Python sorted(...) (a stable comparison sort) is modelled by
  List.insertionSort, which is also a stable comparison sort;
- raised exceptions that a caller converts to a boolean or error value are
  modelled with Option / Except.
All definitions are structural so that they evaluate inside the kernel.
-/

namespace SkillsVault

/-! ### String helpers (models of Python str primitives) -/

/-- Model of Python str.split(sep) for a one-character separator, on the
character list of the string (structural, kernel-computable). -/
def splitOnChar (c : Char) : List Char → List (List Char)
  | [] => [[]]
  | x :: xs =>
    let r := splitOnChar c xs
    if x = c then [] :: r
    else
      match r with
      | h :: t => (x :: h) :: t
      | [] => [[x]]

/-- Boolean test that the first character list is a prefix of the second. -/
def charsPrefixOf : List Char → List Char → Bool
  | [], _ => true
  | _ :: _, [] => false
  | a :: as, b :: bs => a = b && charsPrefixOf as bs

/-- Boolean test that the first character list occurs inside the second. -/
def charsInfixOf : List Char → List Char → Bool
  | p, [] => charsPrefixOf p []
  | p, b :: s1 => charsPrefixOf p (b :: s1) || charsInfixOf p s1

/-- Model of the Python substring test (p in s). -/
def strContains (s p : String) : Bool := charsInfixOf p.data s.data

/-! ### scripts/utils.py : parse_github_url (URL Resolver) -/

/-- Repository coordinates returned by parse_github_url. -/
structure RepoRef where
  owner : String
  repo : String
  branch : String
  subfolder : Option String
deriving Repr, DecidableEq

/-- Model of path_parts in utils.parse_github_url:
the non-empty segments of the URL's path component
(path_parts = [p for p in parsed.path.split('/') if p]). -/
def url_path_parts (urlPath : String) : List String :=
  ((splitOnChar '/' urlPath.data).map String.mk).filter (fun p => p ≠ "")

/-- Branch and subfolder resolution of utils.parse_github_url, applied to the
path segments after owner and repo: branch defaults to "main" and subfolder to
none unless the segments start with the literal "tree" followed by a branch
segment (len(path_parts) > 3 and path_parts[2] == "tree"), in which case the
branch is that segment and the subfolder joins the remaining segments with "/"
('/'.join(path_parts[4:])) when there are any. -/
def resolve_branch_subfolder (rest : List String) : String × Option String :=
  match rest with
  | "tree" :: branch :: restPath =>
    (branch, if restPath = [] then none else some (String.intercalate "/" restPath))
  | _ => ("main", none)

/-- Model of utils.parse_github_url, applied to the path component of the URL
(urlparse(url).path). The raised ValueError for a URL with fewer than two
segments is modelled as Except.error. -/
def parse_github_url (urlPath : String) : Except String RepoRef :=
  match url_path_parts urlPath with
  | owner :: repo :: rest =>
    .ok ⟨owner, repo, (resolve_branch_subfolder rest).1, (resolve_branch_subfolder rest).2⟩
  | _ => .error "Invalid GitHub URL"

/-- Helper: when the segments after owner and repo do not start with
"tree" followed by a branch segment, the default branch placeholder and an
empty subfolder are returned. -/
theorem resolve_branch_subfolder_default (rest : List String)
    (hnot : ∀ b p, rest ≠ "tree" :: b :: p) :
    resolve_branch_subfolder rest = ("main", none) := by
  unfold resolve_branch_subfolder
  split
  · exact absurd rfl (hnot _ _)
  · rfl

/-- C7: for every source URL whose path has at least 2 non-empty segments, the
URL Resolver returns owner and repo equal to the first two segments; with
fewer than 2 segments it fails (MalformedReferenceError, modelled as
Except.error); whenever the segment at index 2 is the literal "tree" (so that
a branch segment follows it), the resolved branch is the segment after "tree"
and the subpath is the remaining segments joined with "/" (none when there are
no remaining segments); otherwise branch is the placeholder "main" and the
subpath is none. -/
theorem claim_C7_url_resolver (url : String) :
    ((url_path_parts url).length < 2 → ∃ e, parse_github_url url = .error e) ∧
    (∀ owner repo rest, url_path_parts url = owner :: repo :: rest →
      (∃ r, parse_github_url url = .ok r ∧ r.owner = owner ∧ r.repo = repo) ∧
      (∀ branch restPath, rest = "tree" :: branch :: restPath →
        parse_github_url url = .ok ⟨owner, repo, branch,
          if restPath = [] then none
          else some (String.intercalate "/" restPath)⟩) ∧
      ((∀ branch restPath, rest ≠ "tree" :: branch :: restPath) →
        parse_github_url url = .ok ⟨owner, repo, "main", none⟩)) := by
  constructor
  · intro hlen
    unfold parse_github_url
    rcases h : url_path_parts url with _ | ⟨a, _ | ⟨b, t⟩⟩
    · exact ⟨_, rfl⟩
    · exact ⟨_, rfl⟩
    · rw [h] at hlen; simp at hlen; omega
  · intro owner repo rest h
    have hget : parse_github_url url =
        .ok ⟨owner, repo, (resolve_branch_subfolder rest).1,
          (resolve_branch_subfolder rest).2⟩ := by
      unfold parse_github_url
      rw [h]
    refine ⟨⟨_, hget, rfl, rfl⟩, ?_, ?_⟩
    · intro branch restPath hrest
      subst hrest
      exact hget
    · intro hnot
      rw [resolve_branch_subfolder_default rest hnot] at hget
      exact hget

/-- Witness for C7: the two example URLs of the spec, with hypotheses
discharged on concrete segment lists. -/
theorem claim_C7_url_resolver_witness :
    parse_github_url "/obra/superpowers/tree/main/skills/brainstorming"
      = .ok ⟨"obra", "superpowers", "main", some "skills/brainstorming"⟩ ∧
    (∃ e, parse_github_url "/smerchek" = .error e) := by
  constructor
  · exact ((claim_C7_url_resolver "/obra/superpowers/tree/main/skills/brainstorming").2
      "obra" "superpowers" ["tree", "main", "skills", "brainstorming"]
      (by decide)).2.1 "main" ["skills", "brainstorming"] rfl
  · exact (claim_C7_url_resolver "/smerchek").1 (by decide)

/-! ### scripts/github_fetcher.py : fetch_standalone_repo (whole-repository strategy) -/

/-- Default exclude patterns of GitHubFetcher.fetch_standalone_repo (also the
default of GitHubFetcher.fetch_skill for the standalone path). -/
def default_exclude_patterns : List String := [".git", ".github", "__pycache__", "*.pyc"]

/-- Member-skip test inside the extraction loop of fetch_standalone_repo: a
member is excluded when some pattern occurs as a plain substring of the
member's path (for pattern in exclude_patterns: if pattern in member.name). -/
def member_excluded (patterns : List String) (name : String) : Bool :=
  patterns.any (fun p => strContains name p)

/-- Root directory name of the downloaded tarball
(root_dir = members[0].name.split('/')[0]). -/
def tarball_root (m0 : String) : String :=
  String.mk ((splitOnChar '/' m0.data).headI)

/-- Extraction loop of GitHubFetcher.fetch_standalone_repo over the member
names of the downloaded tarball. none models the False return for an empty
tarball; otherwise the returned list holds the member paths extracted under
the target directory, with the root directory stripped. A member is skipped
when it is the root directory itself, when an exclude pattern matches it, or
when stripping the root prefix leaves an empty path. -/
def fetch_standalone_repo (members : List String) (patterns : List String) :
    Option (List String) :=
  match members with
  | [] => none
  | m0 :: _ =>
    let root := tarball_root m0
    some (members.filterMap (fun m =>
      if m = root then none
      else if member_excluded patterns m then none
      else
        let stripped := m.drop (root.length + 1)
        if stripped = "" then none else some stripped))

/-- Bridge between the executable prefix test and the List.IsPrefix order. -/
theorem charsPrefixOf_iff (p s : List Char) :
    charsPrefixOf p s = true ↔ p <+: s := by
  induction p generalizing s with
  | nil => simp [charsPrefixOf]
  | cons a as ih =>
    cases s with
    | nil => simp [charsPrefixOf]
    | cons b bs => simp [charsPrefixOf, List.cons_prefix_cons, ih]

/-- Bridge between the executable substring test and the List.IsInfix order. -/
theorem charsInfixOf_iff (p s : List Char) :
    charsInfixOf p s = true ↔ p <:+: s := by
  induction s with
  | nil => simp [charsInfixOf, charsPrefixOf_iff]
  | cons b s1 ih => simp [charsInfixOf, charsPrefixOf_iff, ih, List.infix_cons_iff]

/-- C8 counterexample: with the default exclude set, an archive member that
denotes a bytecode file (helper.pyc) outside a bytecode-cache directory is not
skipped by the extraction loop, contradicting the claim that every bytecode
file is excluded by default: the '*.pyc' entry of the default exclude set is
compared as a literal substring and never matches an actual .pyc path. -/
theorem claim_C8_counterexample :
    fetch_standalone_repo
      ["repo-main", "repo-main/helper.pyc", "repo-main/.github/ci.yml"]
      default_exclude_patterns = some ["helper.pyc"] := by decide

/-- C8 (amended): an archive member is skipped exactly when some exclude
pattern is a substring of the member's path; under the default exclude set
this skips every member whose path contains ".git", ".github", "__pycache__"
or the literal "*.pyc" — so version-control metadata, CI metadata and
bytecode-cache directories are skipped, but a bytecode file outside a
bytecode-cache directory is not skipped (shown by the counterexample). The
second conjunct characterises the extracted members of a non-empty archive:
x is extracted exactly when it is some member with the root stripped, the
member is not the root itself, no exclude pattern occurs in it, and the
stripped path is non-empty. -/
theorem claim_C8_amended :
    (∀ (patterns : List String) (name : String),
      member_excluded patterns name = true ↔
        ∃ p ∈ patterns, p.data <:+: name.data) ∧
    (∀ (patterns : List String) (m0 : String) (ms : List String) (x : String),
      x ∈ (fetch_standalone_repo (m0 :: ms) patterns).getD [] ↔
        ∃ m ∈ m0 :: ms, m ≠ tarball_root m0 ∧
          member_excluded patterns m = false ∧
          m.drop ((tarball_root m0).length + 1) = x ∧ x ≠ "") ∧
    (∀ name : String,
      (strContains name ".git" || strContains name "__pycache__") = true →
        member_excluded default_exclude_patterns name = true) := by
  refine ⟨?_, ?_, ?_⟩
  · intro patterns name
    simp [member_excluded, strContains, charsInfixOf_iff]
  · intro patterns m0 ms x
    simp only [fetch_standalone_repo, Option.getD_some, List.mem_filterMap]
    constructor
    · rintro ⟨m, hm, hx⟩
      refine ⟨m, hm, ?_⟩
      by_cases h1 : m = tarball_root m0 <;> simp [h1] at hx
      by_cases h2 : member_excluded patterns m = true <;> simp [h2] at hx
      by_cases h3 : m.drop ((tarball_root m0).length + 1) = "" <;> simp [h3] at hx
      exact ⟨h1, by simpa using h2, hx, fun hxe => h3 (hx.trans hxe)⟩
    · rintro ⟨m, hm, h1, h2, h3, h4⟩
      exact ⟨m, hm, by simp [h1, h2, h3, h4]⟩
  · intro name h
    rcases Bool.or_eq_true_iff.mp h with h1 | h1 <;>
      simp [member_excluded, default_exclude_patterns, h1]

/-- Witness for C8 (amended): concrete instances of each conjunct — the
substring criterion on a CI-metadata path, the extraction characterisation on
a concrete archive, and the default-set positive case. -/
theorem claim_C8_amended_witness :
    (member_excluded default_exclude_patterns "a/.github/ci.yml" = true ↔
      ∃ p ∈ default_exclude_patterns, p.data <:+: "a/.github/ci.yml".data) ∧
    ("helper.pyc" ∈ (fetch_standalone_repo ["repo-main", "repo-main/helper.pyc"]
        default_exclude_patterns).getD [] ↔
      ∃ m ∈ ["repo-main", "repo-main/helper.pyc"], m ≠ tarball_root "repo-main" ∧
        member_excluded default_exclude_patterns m = false ∧
        m.drop ((tarball_root "repo-main").length + 1) = "helper.pyc" ∧
        "helper.pyc" ≠ "") ∧
    member_excluded default_exclude_patterns "x/__pycache__/m.pyc" = true :=
  ⟨claim_C8_amended.1 default_exclude_patterns "a/.github/ci.yml",
   claim_C8_amended.2.1 default_exclude_patterns "repo-main" ["repo-main/helper.pyc"] "helper.pyc",
   claim_C8_amended.2.2 "x/__pycache__/m.pyc" (by decide)⟩

/-! ### scripts/github_fetcher.py : subpath strategy (_fetch_contents_recursive) -/

/-- Remote tree as listed by the directory-contents API, together with
oracles for the outcome of the external calls: ok on a file says whether
downloading that file succeeds; lok on a directory says whether fetching that
directory's listing succeeds. -/
inductive RemoteItem where
  | file (name : String) (ok : Bool)
  | dir (name : String) (lok : Bool) (children : List RemoteItem)
deriving Repr

/-- Outbound interactions of the subpath strategy, in order: a throttle check
(wait_for_rate_limit_reset), a directory-listing fetch, or a raw-file
download. -/
inductive FetchEvent where
  | throttle
  | listing (path : String)
  | download (path : String)
deriving Repr, DecidableEq

/-- Result of a traversal: the chronological list of outbound interactions,
the relative paths written under the target directory, and the boolean the
Python function returns. -/
structure FetchResult where
  events : List FetchEvent
  written : List String
  ok : Bool
deriving Repr

/-- Per-item loop of GitHubFetcher._fetch_contents_recursive, run after the
listing of the current directory has been fetched successfully; rp is the
remote path of the listed directory, lp its relative local path under the
target directory. A file item is preceded by wait_for_rate_limit_reset and
downloaded; a failing download raises, which aborts the current invocation
with return value False (siblings written so far stay on disk). A directory
item re-enters _fetch_contents_recursive, whose own first step is the listing
fetch for that subdirectory; the boolean returned by that recursive call is
discarded by the source (the call result is not inspected), modelled here by
using only the events and written files of the sub-result while the loop's
boolean comes from the remaining items alone. -/
def fetch_loop : String → String → List RemoteItem → FetchResult
  | _, _, [] => ⟨[], [], true⟩
  | rp, lp, .file n ok :: rest =>
    if ok then
      let r := fetch_loop rp lp rest
      ⟨.throttle :: .download (rp ++ "/" ++ n) :: r.events,
       (lp ++ "/" ++ n) :: r.written, r.ok⟩
    else
      ⟨[.throttle, .download (rp ++ "/" ++ n)], [], false⟩
  | rp, lp, .dir n lok children :: rest =>
    let sub :=
      if lok then
        let rc := fetch_loop (rp ++ "/" ++ n) (lp ++ "/" ++ n) children
        FetchResult.mk (.listing (rp ++ "/" ++ n) :: rc.events) rc.written rc.ok
      else
        ⟨[.listing (rp ++ "/" ++ n)], [], false⟩
    let r := fetch_loop rp lp rest
    ⟨sub.events ++ r.events, sub.written ++ r.written, r.ok⟩

/-- Model of GitHubFetcher._fetch_contents_recursive for the directory at
remote path rp: the listing request for rp is issued; if it fails, the
invocation logs and returns False; otherwise the listed items are processed
in order by the loop. -/
def fetch_contents_recursive (rp lp : String) (lok : Bool)
    (items : List RemoteItem) : FetchResult :=
  if lok then
    let r := fetch_loop rp lp items
    ⟨.listing rp :: r.events, r.written, r.ok⟩
  else ⟨[.listing rp], [], false⟩

/-- Sanity lemma tying the directory case of the loop to the model of the
recursive call it inlines: processing a directory item contributes exactly
the events and written files of the corresponding _fetch_contents_recursive
invocation, and the loop's boolean ignores that invocation's boolean. -/
theorem fetch_loop_dir (rp lp n : String) (lok : Bool)
    (children rest : List RemoteItem) :
    fetch_loop rp lp (.dir n lok children :: rest) =
      ⟨(fetch_contents_recursive (rp ++ "/" ++ n) (lp ++ "/" ++ n) lok children).events
         ++ (fetch_loop rp lp rest).events,
       (fetch_contents_recursive (rp ++ "/" ++ n) (lp ++ "/" ++ n) lok children).written
         ++ (fetch_loop rp lp rest).written,
       (fetch_loop rp lp rest).ok⟩ := by
  cases lok <;> simp [fetch_loop, fetch_contents_recursive]

/-- Model of GitHubFetcher.fetch_subfolder: one wait_for_rate_limit_reset
call, then the recursive traversal starting at the subfolder path. -/
def fetch_subfolder (rp lp : String) (lok : Bool) (items : List RemoteItem) :
    FetchResult :=
  let r := fetch_contents_recursive rp lp lok items
  ⟨.throttle :: r.events, r.written, r.ok⟩

/-- C1: the code contradicts the claim. In a traversal whose nested
subdirectory fails (its listing fetch fails, so the recursive invocation for
it returns False — first conjunct), the strategy as a whole still returns
True (second conjunct), because _fetch_contents_recursive discards the
boolean returned by its recursive call; the claim (and the spec) requires the
strategy to report failure to its caller so the package is not registered. -/
theorem claim_C1_nested_failure_swallowed :
    (fetch_contents_recursive "skills/sub" "sub" false []).ok = false ∧
    (fetch_subfolder "skills" "" true [RemoteItem.dir "sub" false []]).ok = true ∧
    (fetch_subfolder "skills" "" true [RemoteItem.file "a.md" false]).ok = false := by
  refine ⟨?_, ?_, ?_⟩ <;>
    simp [fetch_subfolder, fetch_contents_recursive, fetch_loop]

/-- Scan of an event trace checking the throttling discipline of the spec:
the Bool accumulator says whether a throttle check has happened since the
last quota-consuming call (listing or download); the first component of the
result is true when every quota-consuming call in the trace happens with the
accumulator set — i.e. is preceded by a throttle check that no other
quota-consuming call has already consumed; the second component is the
accumulator after the whole trace. -/
def throttle_scan : Bool → List FetchEvent → Bool × Bool
  | a, [] => (true, a)
  | _, .throttle :: rest => throttle_scan true rest
  | a, .listing _ :: rest =>
    let r := throttle_scan false rest
    (a && r.1, r.2)
  | a, .download _ :: rest =>
    let r := throttle_scan false rest
    (a && r.1, r.2)

/-- Discipline required by the claim, over a whole trace: every
quota-consuming call is preceded by its own throttle check (the scan starts
unarmed: nothing has been throttled before the trace begins). -/
def all_quota_calls_throttled (events : List FetchEvent) : Bool :=
  (throttle_scan false events).1

/-- State of the weaker scan: whether the immediately preceding event of the
trace position is a throttle check. -/
def last_is_throttle : Bool → List FetchEvent → Bool
  | a, [] => a
  | _, .throttle :: rest => last_is_throttle true rest
  | _, .listing _ :: rest => last_is_throttle false rest
  | _, .download _ :: rest => last_is_throttle false rest

/-- Scan checking that every download in the trace is immediately preceded by
a throttle check; the accumulator says whether the previous event was a
throttle check. -/
def downloads_throttled_scan : Bool → List FetchEvent → Bool
  | _, [] => true
  | _, .throttle :: rest => downloads_throttled_scan true rest
  | _, .listing _ :: rest => downloads_throttled_scan false rest
  | a, .download _ :: rest => a && downloads_throttled_scan false rest

/-- Splitting lemma for the download scan over trace concatenation. -/
theorem downloads_throttled_scan_append (a : Bool) (l1 l2 : List FetchEvent) :
    downloads_throttled_scan a (l1 ++ l2) =
      (downloads_throttled_scan a l1 &&
        downloads_throttled_scan (last_is_throttle a l1) l2) := by
  induction l1 generalizing a with
  | nil => simp [downloads_throttled_scan, last_is_throttle]
  | cons e t ih =>
    cases e <;>
      simp [downloads_throttled_scan, last_is_throttle, ih, Bool.and_assoc]

/-- Invariant of the traversal loop: every file download it performs is
immediately preceded by its own wait_for_rate_limit_reset call, whatever the
scan state on entry. -/
theorem fetch_loop_downloads_throttled (rp lp : String) (items : List RemoteItem) :
    ∀ a : Bool, downloads_throttled_scan a (fetch_loop rp lp items).events = true := by
  induction rp, lp, items using fetch_loop.induct with
  | case1 rp lp =>
    intro a
    simp [fetch_loop, downloads_throttled_scan]
  | case2 rp lp n rest ih =>
    intro a
    simp [fetch_loop, downloads_throttled_scan, ih]
  | case3 rp lp n ok rest hok =>
    intro a
    simp [fetch_loop, hok, downloads_throttled_scan]
  | case4 rp lp n lok children rest ih2 ih1 =>
    intro a
    cases lok <;>
      simp [fetch_loop, downloads_throttled_scan, downloads_throttled_scan_append,
        last_is_throttle, ih1, ih2]

/-- C4 counterexample: in a traversal that recurses into one (empty, cleanly
listed) subdirectory, the trace is throttle, root listing, nested listing —
so the nested directory-listing fetch is issued without any preceding
throttle check of its own, and the trace violates the claimed discipline. -/
theorem claim_C4_counterexample :
    (fetch_subfolder "skills" "" true [RemoteItem.dir "sub" true []]).events =
      [.throttle, .listing "skills", .listing "skills/sub"] ∧
    all_quota_calls_throttled
      (fetch_subfolder "skills" "" true [RemoteItem.dir "sub" true []]).events
      = false := by
  constructor <;>
    simp [fetch_subfolder, fetch_contents_recursive, fetch_loop,
      all_quota_calls_throttled, throttle_scan]

/-- C4 (amended): in the subpath strategy, every individual file download is
immediately preceded by its own throttle check, and the top-level listing
fetch is preceded by the single throttle check of fetch_subfolder (the trace
always begins throttle, root listing); but nested directory-listing fetches
are issued without a preceding throttle check of their own (shown by the
counterexample), so the claimed discipline holds for downloads and the root
listing only. -/
theorem claim_C4_amended (rp lp : String) (lok : Bool) (items : List RemoteItem) :
    downloads_throttled_scan false (fetch_subfolder rp lp lok items).events = true ∧
    (fetch_subfolder rp lp lok items).events.take 2 = [.throttle, .listing rp] := by
  constructor
  · cases lok
    · simp [fetch_subfolder, fetch_contents_recursive, downloads_throttled_scan]
    · simp [fetch_subfolder, fetch_contents_recursive, downloads_throttled_scan,
        fetch_loop_downloads_throttled]
  · cases lok <;> simp [fetch_subfolder, fetch_contents_recursive]

/-! ### scripts/skill_processor.py : parse_skill_frontmatter / validate_skill -/

/-- Metadata mapping parsed from the SKILL.md frontmatter: a list of
key-value pairs in document order. -/
abbrev Metadata := List (String × String)

/-- Lookup modelling Python dict.get(key) on the parsed mapping. -/
def meta_get (m : Metadata) (k : String) : Option String :=
  (m.find? (fun kv => kv.1 = k)).map (fun kv => kv.2)

/-- Truthiness of an optional string value, as Python evaluates it: absent
keys and empty strings are falsy. -/
def truthyOpt : Option String → Bool
  | none => false
  | some s => s ≠ ""

/-- Observable state of a fetched package directory as the validator reads
it: whether the path exists and is a directory, whether SKILL.md exists at
the root, the outcome of the YAML frontmatter parse (none models a parse
error raised inside the frontmatter library), and the file size of SKILL.md
in bytes. -/
structure SkillDirState where
  dirExists : Bool
  isDir : Bool
  skillMdExists : Bool
  frontmatter : Option Metadata
  fileSize : Nat

/-- Model of skill_processor.parse_skill_frontmatter: any exception during
opening or parsing is caught and an empty mapping is returned — this
function never raises. -/
def parse_skill_frontmatter (s : SkillDirState) : Metadata :=
  match s.frontmatter with
  | some m => m
  | none => []

/-- Validation outcome of skill_processor.validate_skill. -/
structure ValidationResult where
  valid : Bool
  errors : List String
  warnings : List String
  metadata : Option Metadata
deriving Repr, DecidableEq

/-- Model of skill_processor.validate_skill. The try block around the
frontmatter parse cannot take its except branch on a parse failure, because
parse_skill_frontmatter returns an empty mapping instead of raising; the
checks afterwards run in source order (name warning, description warning,
zero-size fatal error, small-size warning). -/
def validate_skill (s : SkillDirState) : ValidationResult :=
  if !s.dirExists then ⟨false, ["Directory does not exist"], [], none⟩
  else if !s.isDir then ⟨false, ["Path is not a directory"], [], none⟩
  else if !s.skillMdExists then ⟨false, ["SKILL.md not found"], [], none⟩
  else
    let metadata := parse_skill_frontmatter s
    let w1 : List String :=
      if truthyOpt (meta_get metadata "name") then []
      else ["Missing name in frontmatter"]
    let w2 : List String :=
      if truthyOpt (meta_get metadata "description") then []
      else ["Missing description in frontmatter"]
    let warnings := w1 ++ w2
    if s.fileSize = 0 then
      ⟨false, ["SKILL.md is empty"], warnings, some metadata⟩
    else if s.fileSize < 50 then
      ⟨true, [], warnings ++ ["SKILL.md is very small"], some metadata⟩
    else
      ⟨true, [], warnings, some metadata⟩

/-- C3: the code contradicts the claim. For a package directory whose
SKILL.md exists (with a plausible size) but whose frontmatter fails to parse,
validate_skill returns valid = true with an empty metadata mapping and two
warnings — the package is accepted — because parse_skill_frontmatter catches
the parse error and returns an empty dict, making the fatal branch of
validate_skill unreachable for parse failures; the claim (and the spec)
requires a fatal error and an invalid result. -/
theorem claim_C3_parse_failure_accepted :
    validate_skill ⟨true, true, true, none, 120⟩ =
      ⟨true, [],
       ["Missing name in frontmatter", "Missing description in frontmatter"],
       some []⟩ := by decide

/-! ### scripts/marketplace_updater.py : merge_plugins (Registry Merger) -/

/-- Registry entry as merge_plugins sees it: the name key as read by
plugin.get('name') (none models a missing key) plus the rest of the entry;
the description field stands in for the payload, which the merge carries
through untouched and which distinguishes entries sharing a name. -/
structure Plugin where
  name : Option String
  description : String
deriving Repr, DecidableEq

/-- Sort key of the output ordering (p.get('name', '')). -/
def nameKey (p : Plugin) : String := p.name.getD ""

/-- Code-point lexicographic comparison of character lists, modelling Python
string comparison. -/
def charsLE : List Char → List Char → Bool
  | [], _ => true
  | _ :: _, [] => false
  | a :: as, b :: bs => if a = b then charsLE as bs else decide (a < b)

/-- Order used by sorted(plugins_dict.values(), key=lambda p: p.get('name', '')). -/
def pluginLE (p q : Plugin) : Prop :=
  charsLE (nameKey p).data (nameKey q).data = true

instance pluginLE.decidableRel : DecidableRel pluginLE := fun p q =>
  inferInstanceAs (Decidable (charsLE (nameKey p).data (nameKey q).data = true))

/-- Totality of the code-point comparison. -/
theorem charsLE_total (as bs : List Char) :
    charsLE as bs = true ∨ charsLE bs as = true := by
  induction as generalizing bs with
  | nil => left; simp [charsLE]
  | cons a at1 ih =>
    cases bs with
    | nil => right; simp [charsLE]
    | cons b bt =>
      by_cases hab : a = b
      · subst hab
        rcases ih bt with h | h <;> simp [charsLE, h]
      · rcases lt_or_gt_of_ne hab with h | h
        · left; simp [charsLE, hab, h]
        · right; simp [charsLE, Ne.symm hab, h]

/-- Transitivity of the code-point comparison. -/
theorem charsLE_trans (as bs cs : List Char)
    (h1 : charsLE as bs = true) (h2 : charsLE bs cs = true) :
    charsLE as cs = true := by
  induction as generalizing bs cs with
  | nil => simp [charsLE]
  | cons a at1 ih =>
    cases bs with
    | nil => simp [charsLE] at h1
    | cons b bt =>
      cases cs with
      | nil => simp [charsLE] at h2
      | cons c ct =>
        by_cases hab : a = b <;> by_cases hbc : b = c
        · subst hab; subst hbc
          simp only [charsLE, if_pos rfl] at h1 h2 ⊢
          exact ih bt ct h1 h2
        · subst hab
          simp only [charsLE, if_pos rfl, if_neg hbc] at h2 ⊢
          simp [hbc] at h2 ⊢
          exact h2
        · subst hbc
          simp only [charsLE, if_neg hab] at h1 ⊢
          exact h1
        · simp only [charsLE, if_neg hab, if_neg hbc] at h1 h2
          simp at h1 h2
          have hac : a < c := lt_trans h1 h2
          simp [charsLE, ne_of_lt hac, hac]

instance pluginLE.isTotal : IsTotal Plugin pluginLE :=
  ⟨fun p q => charsLE_total (nameKey p).data (nameKey q).data⟩

instance pluginLE.isTrans : IsTrans Plugin pluginLE :=
  ⟨fun _ _ _ h1 h2 => charsLE_trans _ _ _ h1 h2⟩

/-- Association list modelling a Python dict keyed by strings. -/
abbrev PluginDict := List (String × Plugin)

/-- Keys of the dict, in insertion order. -/
def dict_keys (d : PluginDict) : List String := d.map (fun kv => kv.1)

/-- Model of a Python dict assignment d[k] = v: an update of a present key
keeps the key's original position and replaces the value; a fresh key is
appended at the end. -/
def dict_set (d : PluginDict) (k : String) (v : Plugin) : PluginDict :=
  if d.any (fun kv => kv.1 = k) then
    d.map (fun kv => if kv.1 = k then (k, v) else kv)
  else d ++ [(k, v)]

/-- First loop of merge_plugins: every existing plugin with a truthy name is
assigned into the dict, a later entry replacing an earlier one with the same
name (plugins_dict[name] = plugin, guarded by if name:). -/
def add_existing (d : PluginDict) : List Plugin → PluginDict
  | [] => d
  | p :: rest =>
    match p.name with
    | some s =>
      if s = "" then add_existing d rest
      else add_existing (dict_set d s p) rest
    | none => add_existing d rest

/-- Second loop of merge_plugins: each new plugin with a truthy name is
assigned only if its name is not already occupied; an occupied name is logged
and the incoming entry dropped — existing entries always win. -/
def add_new (d : PluginDict) : List Plugin → PluginDict
  | [] => d
  | p :: rest =>
    match p.name with
    | some s =>
      if s = "" then add_new d rest
      else if d.any (fun kv => kv.1 = s) then add_new d rest
      else add_new (d ++ [(s, p)]) rest
    | none => add_new d rest

/-- Model of marketplace_updater.merge_plugins: dict insertion of existing
entries then new entries, and the dict values sorted by name key; Python's
sorted (a stable comparison sort) is modelled by insertion sort. -/
def merge_plugins (existing_plugins new_plugins : List Plugin) : List Plugin :=
  List.insertionSort pluginLE
    ((add_new (add_existing [] existing_plugins) new_plugins).map (fun kv => kv.2))

/-- Names, truthy under Python, of a plugin list, in order. -/
def truthy_names (l : List Plugin) : List String :=
  l.filterMap (fun p =>
    match p.name with
    | some s => if s = "" then none else some s
    | none => none)

/-- Name values present in a plugin list (the raw name fields, including the
empty string when it occurs). -/
def plugin_names (l : List Plugin) : List String :=
  l.filterMap (fun p => p.name)

/-- Invariant of the merge dict: keys are distinct, and every stored plugin
carries its own (truthy) key as name. -/
def good_dict (d : PluginDict) : Prop :=
  (dict_keys d).Nodup ∧ ∀ kv ∈ d, kv.2.name = some kv.1 ∧ kv.1 ≠ ""

/-- Unfolding equations for the merge loops, by the shape of the head
entry's name field. -/
theorem add_existing_cons_none (d : PluginDict) (p : Plugin) (rest : List Plugin)
    (hp : p.name = none) : add_existing d (p :: rest) = add_existing d rest := by
  conv_lhs => unfold add_existing
  rw [hp]

/-- Unfolding equation of the first loop for an empty-named head entry. -/
theorem add_existing_cons_empty (d : PluginDict) (p : Plugin) (rest : List Plugin)
    (hp : p.name = some "") : add_existing d (p :: rest) = add_existing d rest := by
  conv_lhs => unfold add_existing
  rw [hp]
  simp

/-- Unfolding equation of the first loop for a truthy-named head entry: the
dict assignment happens unconditionally, so a later entry with the same name
replaces an earlier one. -/
theorem add_existing_cons_some (d : PluginDict) (p : Plugin) (rest : List Plugin)
    (s : String) (hp : p.name = some s) (hs : s ≠ "") :
    add_existing d (p :: rest) = add_existing (dict_set d s p) rest := by
  conv_lhs => unfold add_existing
  rw [hp]
  simp [hs]

/-- Unfolding equation of the second loop for a nameless head entry. -/
theorem add_new_cons_none (d : PluginDict) (p : Plugin) (rest : List Plugin)
    (hp : p.name = none) : add_new d (p :: rest) = add_new d rest := by
  conv_lhs => unfold add_new
  rw [hp]

/-- Unfolding equation of the second loop for an empty-named head entry. -/
theorem add_new_cons_empty (d : PluginDict) (p : Plugin) (rest : List Plugin)
    (hp : p.name = some "") : add_new d (p :: rest) = add_new d rest := by
  conv_lhs => unfold add_new
  rw [hp]
  simp

/-- Unfolding equation of the second loop for an occupied incoming name: the
incoming entry is dropped. -/
theorem add_new_cons_occupied (d : PluginDict) (p : Plugin) (rest : List Plugin)
    (s : String) (hp : p.name = some s) (hs : s ≠ "")
    (hany : (d.any (fun kv => kv.1 = s)) = true) :
    add_new d (p :: rest) = add_new d rest := by
  conv_lhs => unfold add_new
  rw [hp]
  simp [hs, hany]

/-- Unfolding equation of the second loop for a fresh incoming name: the
incoming entry is appended. -/
theorem add_new_cons_fresh (d : PluginDict) (p : Plugin) (rest : List Plugin)
    (s : String) (hp : p.name = some s) (hs : s ≠ "")
    (hany : ¬(d.any (fun kv => kv.1 = s)) = true) :
    add_new d (p :: rest) = add_new (d ++ [(s, p)]) rest := by
  conv_lhs => unfold add_new
  rw [hp]
  simp only [hs, if_false, if_neg hany]

/-- Bridge between the dict-membership test of the merge loops and key
membership. -/
theorem any_key_iff (d : PluginDict) (k : String) :
    (d.any (fun kv => kv.1 = k)) = true ↔ k ∈ dict_keys d := by
  simp only [List.any_eq_true, decide_eq_true_eq, dict_keys, List.mem_map]

/-- Keys are unchanged by an assignment to a present key. -/
theorem dict_keys_dict_set_mem (d : PluginDict) (k : String) (v : Plugin)
    (hk : k ∈ dict_keys d) :
    dict_keys (dict_set d k v) = dict_keys d := by
  unfold dict_set
  rw [if_pos ((any_key_iff d k).mpr hk)]
  unfold dict_keys
  rw [List.map_map]
  refine List.map_congr_left (fun kv _ => ?_)
  by_cases h : kv.1 = k <;> simp [h]

/-- An assignment to a fresh key appends that key. -/
theorem dict_keys_dict_set_not_mem (d : PluginDict) (k : String) (v : Plugin)
    (hk : k ∉ dict_keys d) :
    dict_keys (dict_set d k v) = dict_keys d ++ [k] := by
  unfold dict_set
  rw [if_neg (fun h => hk ((any_key_iff d k).mp h))]
  simp [dict_keys]

/-- Membership in the keys after a dict assignment. -/
theorem mem_keys_dict_set (d : PluginDict) (k s : String) (v : Plugin) :
    s ∈ dict_keys (dict_set d k v) ↔ s ∈ dict_keys d ∨ s = k := by
  by_cases hk : k ∈ dict_keys d
  · rw [dict_keys_dict_set_mem d k v hk]
    constructor
    · exact Or.inl
    · rintro (h | h)
      · exact h
      · rw [h]; exact hk
  · rw [dict_keys_dict_set_not_mem d k v hk]
    simp

/-- Assigning a pair makes it a member of the dict. -/
theorem mem_dict_set_self (d : PluginDict) (k : String) (v : Plugin) :
    (k, v) ∈ dict_set d k v := by
  unfold dict_set
  by_cases hany : (d.any (fun kv => kv.1 = k)) = true
  · rw [if_pos hany]
    rcases List.any_eq_true.mp hany with ⟨kv, hkv, hk⟩
    rw [decide_eq_true_eq] at hk
    exact List.mem_map.mpr ⟨kv, hkv, by rw [if_pos hk]⟩
  · rw [if_neg hany]
    exact List.mem_append_right _ (by simp)

/-- Pairs with a different key survive a dict assignment. -/
theorem mem_dict_set_of_ne (d : PluginDict) (k s : String) (v p : Plugin)
    (hmem : (s, p) ∈ d) (hne : s ≠ k) :
    (s, p) ∈ dict_set d k v := by
  unfold dict_set
  by_cases hany : (d.any (fun kv => kv.1 = k)) = true
  · rw [if_pos hany]
    exact List.mem_map.mpr ⟨(s, p), hmem, by rw [if_neg hne]⟩
  · rw [if_neg hany]
    exact List.mem_append_left _ hmem

/-- Dict assignment of a self-keyed truthy-named plugin preserves the merge
dict invariant. -/
theorem good_dict_dict_set (d : PluginDict) (k : String) (v : Plugin)
    (hd : good_dict d) (hv : v.name = some k) (hk : k ≠ "") :
    good_dict (dict_set d k v) := by
  constructor
  · by_cases h : k ∈ dict_keys d
    · rw [dict_keys_dict_set_mem d k v h]; exact hd.1
    · rw [dict_keys_dict_set_not_mem d k v h]
      simp [List.nodup_append, hd.1, h]
  · intro kv hkv
    unfold dict_set at hkv
    by_cases hany : (d.any (fun kv => kv.1 = k)) = true
    · rw [if_pos hany] at hkv
      rcases List.mem_map.mp hkv with ⟨orig, horig, heq⟩
      by_cases ho : orig.1 = k
      · rw [if_pos ho] at heq
        rw [← heq]; exact ⟨hv, hk⟩
      · rw [if_neg ho] at heq
        rw [← heq]; exact hd.2 orig horig
    · rw [if_neg hany] at hkv
      rcases List.mem_append.mp hkv with h | h
      · exact hd.2 kv h
      · rw [List.mem_singleton.mp h]; exact ⟨hv, hk⟩

/-- Base case: the empty dict satisfies the invariant. -/
theorem good_dict_nil : good_dict [] := by
  constructor
  · simp [dict_keys]
  · intro kv hkv; simp at hkv

/-- The first merge loop preserves the dict invariant. -/
theorem good_dict_add_existing (l : List Plugin) :
    ∀ d : PluginDict, good_dict d → good_dict (add_existing d l) := by
  induction l with
  | nil => intro d hd; exact hd
  | cons p rest ih =>
    intro d hd
    cases hp : p.name with
    | none => rw [add_existing_cons_none d p rest hp]; exact ih d hd
    | some s =>
      by_cases hs : s = ""
      · subst hs
        rw [add_existing_cons_empty d p rest hp]
        exact ih d hd
      · rw [add_existing_cons_some d p rest s hp hs]
        exact ih _ (good_dict_dict_set d s p hd hp hs)

/-- The second merge loop preserves the dict invariant. -/
theorem good_dict_add_new (l : List Plugin) :
    ∀ d : PluginDict, good_dict d → good_dict (add_new d l) := by
  induction l with
  | nil => intro d hd; exact hd
  | cons p rest ih =>
    intro d hd
    cases hp : p.name with
    | none => rw [add_new_cons_none d p rest hp]; exact ih d hd
    | some s =>
      by_cases hs : s = ""
      · subst hs
        rw [add_new_cons_empty d p rest hp]
        exact ih d hd
      · by_cases hany : (d.any (fun kv => kv.1 = s)) = true
        · rw [add_new_cons_occupied d p rest s hp hs hany]
          exact ih d hd
        · rw [add_new_cons_fresh d p rest s hp hs hany]
          have hsk : s ∉ dict_keys d := fun hmem => hany ((any_key_iff d s).mpr hmem)
          refine ih _ ⟨?_, ?_⟩
          · have hkeq : dict_keys (d ++ [(s, p)]) = dict_keys d ++ [s] := by
              simp [dict_keys]
            rw [hkeq]
            simp [List.nodup_append, hd.1, hsk]
          · intro kv hkv
            rcases List.mem_append.mp hkv with h | h
            · exact hd.2 kv h
            · rw [List.mem_singleton.mp h]; exact ⟨hp, hs⟩

/-- Membership in the dict is preserved by the second merge loop, which only
ever appends. -/
theorem mem_add_new_of_mem (l : List Plugin) :
    ∀ (d : PluginDict) (kv : String × Plugin), kv ∈ d → kv ∈ add_new d l := by
  induction l with
  | nil => intro d kv h; exact h
  | cons p rest ih =>
    intro d kv h
    cases hp : p.name with
    | none => rw [add_new_cons_none d p rest hp]; exact ih d kv h
    | some s =>
      by_cases hs : s = ""
      · subst hs
        rw [add_new_cons_empty d p rest hp]
        exact ih d kv h
      · by_cases hany : (d.any (fun kv => kv.1 = s)) = true
        · rw [add_new_cons_occupied d p rest s hp hs hany]
          exact ih d kv h
        · rw [add_new_cons_fresh d p rest s hp hs hany]
          exact ih _ kv (List.mem_append_left _ h)

/-- Truthy names of a list headed by an unnamed plugin. -/
theorem truthy_names_cons_none (p : Plugin) (rest : List Plugin)
    (hp : p.name = none) : truthy_names (p :: rest) = truthy_names rest := by
  unfold truthy_names
  rw [List.filterMap_cons, hp]

/-- Truthy names of a list headed by an empty-named plugin. -/
theorem truthy_names_cons_empty (p : Plugin) (rest : List Plugin)
    (hp : p.name = some "") : truthy_names (p :: rest) = truthy_names rest := by
  unfold truthy_names
  rw [List.filterMap_cons, hp]
  simp

/-- Truthy names of a list headed by a plugin with a non-empty name. -/
theorem truthy_names_cons_some (p : Plugin) (rest : List Plugin) (s : String)
    (hp : p.name = some s) (hs : s ≠ "") :
    truthy_names (p :: rest) = s :: truthy_names rest := by
  unfold truthy_names
  rw [List.filterMap_cons, hp]
  simp [hs]

/-- Keys reachable through the first merge loop: exactly the starting keys
together with the truthy names of the inserted list. -/
theorem mem_keys_add_existing (l : List Plugin) :
    ∀ (d : PluginDict) (k : String),
      k ∈ dict_keys (add_existing d l) ↔ k ∈ dict_keys d ∨ k ∈ truthy_names l := by
  induction l with
  | nil => intro d k; simp [add_existing, truthy_names]
  | cons p rest ih =>
    intro d k
    cases hp : p.name with
    | none =>
      rw [add_existing_cons_none d p rest hp, truthy_names_cons_none p rest hp]
      exact ih d k
    | some s =>
      by_cases hs : s = ""
      · subst hs
        rw [add_existing_cons_empty d p rest hp, truthy_names_cons_empty p rest hp]
        exact ih d k
      · rw [add_existing_cons_some d p rest s hp hs,
          truthy_names_cons_some p rest s hp hs]
        rw [ih (dict_set d s p) k, mem_keys_dict_set]
        simp only [List.mem_cons]
        tauto

/-- Keys reachable through the second merge loop: exactly the starting keys
together with the truthy names of the incoming list. -/
theorem mem_keys_add_new (l : List Plugin) :
    ∀ (d : PluginDict) (k : String),
      k ∈ dict_keys (add_new d l) ↔ k ∈ dict_keys d ∨ k ∈ truthy_names l := by
  induction l with
  | nil => intro d k; simp [add_new, truthy_names]
  | cons p rest ih =>
    intro d k
    cases hp : p.name with
    | none =>
      rw [add_new_cons_none d p rest hp, truthy_names_cons_none p rest hp]
      exact ih d k
    | some s =>
      by_cases hs : s = ""
      · subst hs
        rw [add_new_cons_empty d p rest hp, truthy_names_cons_empty p rest hp]
        exact ih d k
      · rw [truthy_names_cons_some p rest s hp hs]
        by_cases hany : (d.any (fun kv => kv.1 = s)) = true
        · rw [add_new_cons_occupied d p rest s hp hs hany]
          have hsk : s ∈ dict_keys d := (any_key_iff d s).mp hany
          rw [ih d k]
          simp only [List.mem_cons]
          constructor
          · tauto
          · rintro (h | h | h)
            · exact Or.inl h
            · rw [h]; exact Or.inl hsk
            · exact Or.inr h
        · rw [add_new_cons_fresh d p rest s hp hs hany]
          rw [ih (d ++ [(s, p)]) k]
          have hkeq : dict_keys (d ++ [(s, p)]) = dict_keys d ++ [s] := by
            simp [dict_keys]
          rw [hkeq]
          simp only [List.mem_append, List.mem_singleton, List.mem_cons]
          tauto

/-- When every truthy incoming name is already a key, the second merge loop
changes nothing: every incoming entry is dropped. -/
theorem add_new_eq_self (l : List Plugin) :
    ∀ d : PluginDict, (∀ s ∈ truthy_names l, s ∈ dict_keys d) → add_new d l = d := by
  induction l with
  | nil => intro d _; rfl
  | cons p rest ih =>
    intro d hsub
    cases hp : p.name with
    | none =>
      rw [add_new_cons_none d p rest hp]
      refine ih d (fun t ht => hsub t ?_)
      rw [truthy_names_cons_none p rest hp]
      exact ht
    | some s =>
      by_cases hs : s = ""
      · subst hs
        rw [add_new_cons_empty d p rest hp]
        refine ih d (fun t ht => hsub t ?_)
        rw [truthy_names_cons_empty p rest hp]
        exact ht
      · have hsk : s ∈ dict_keys d := by
          refine hsub s ?_
          rw [truthy_names_cons_some p rest s hp hs]
          exact List.mem_cons_self s _
        rw [add_new_cons_occupied d p rest s hp hs ((any_key_iff d s).mpr hsk)]
        refine ih d (fun t ht => hsub t ?_)
        rw [truthy_names_cons_some p rest s hp hs]
        exact List.mem_cons_of_mem s ht

/-- A pair already in the dict survives the first loop when no processed
entry carries its name. -/
theorem mem_add_existing_of_no_such_name (l : List Plugin) :
    ∀ (d : PluginDict) (s : String) (p : Plugin), (s, p) ∈ d →
      l.filter (fun q => q.name = some s) = [] → (s, p) ∈ add_existing d l := by
  induction l with
  | nil => intro d s p hmem _; exact hmem
  | cons q rest ih =>
    intro d s p hmem hno
    rw [List.filter_cons] at hno
    by_cases hq : q.name = some s
    · simp [hq] at hno
    · have hno2 : rest.filter (fun q => q.name = some s) = [] := by
        simpa [hq] using hno
      cases hqn : q.name with
      | none => rw [add_existing_cons_none d q rest hqn]; exact ih d s p hmem hno2
      | some t =>
        by_cases ht : t = ""
        · subst ht
          rw [add_existing_cons_empty d q rest hqn]
          exact ih d s p hmem hno2
        · rw [add_existing_cons_some d q rest t hqn ht]
          have hts : s ≠ t := fun h => hq (by rw [hqn, h])
          exact ih _ s p (mem_dict_set_of_ne d t s q p hmem hts) hno2

/-- The last existing entry carrying a given truthy name ends up in the dict
built by the first merge loop: a later existing entry replaces an earlier one
with the same name. -/
theorem mem_add_existing_getLast (l : List Plugin) :
    ∀ (d : PluginDict) (s : String) (p : Plugin), s ≠ "" →
      (l.filter (fun q => q.name = some s)).getLast? = some p →
      (s, p) ∈ add_existing d l := by
  induction l with
  | nil => intro d s p _ hlast; simp at hlast
  | cons q rest ih =>
    intro d s p hs hlast
    rw [List.filter_cons] at hlast
    by_cases hq : q.name = some s
    · rw [if_pos (by simpa using hq)] at hlast
      cases hfr : rest.filter (fun q => q.name = some s) with
      | nil =>
        rw [hfr] at hlast
        have hpq : q = p := by simpa using hlast
        subst hpq
        rw [add_existing_cons_some d q rest s hq hs]
        exact mem_add_existing_of_no_such_name rest _ s q (mem_dict_set_self d s q) hfr
      | cons x xs =>
        rw [hfr] at hlast
        have hlast2 : (rest.filter (fun q => q.name = some s)).getLast? = some p := by
          rw [hfr]
          simpa [List.getLast?_cons_cons] using hlast
        rw [add_existing_cons_some d q rest s hq hs]
        exact ih _ s p hs hlast2
    · have hlast2 : (rest.filter (fun q => q.name = some s)).getLast? = some p := by
        rwa [if_neg (by simpa using hq)] at hlast
      cases hqn : q.name with
      | none => rw [add_existing_cons_none d q rest hqn]; exact ih d s p hs hlast2
      | some t =>
        by_cases ht : t = ""
        · subst ht
          rw [add_existing_cons_empty d q rest hqn]
          exact ih d s p hs hlast2
        · rw [add_existing_cons_some d q rest t hqn ht]
          exact ih _ s p hs hlast2

/-- In a dict with distinct keys, a key determines its value. -/
theorem eq_of_mem_nodup_keys (d : PluginDict) (hnd : (dict_keys d).Nodup)
    (s : String) (p q : Plugin) (hp : (s, p) ∈ d) (hq : (s, q) ∈ d) : p = q := by
  induction d with
  | nil => simp at hp
  | cons kv rest ih =>
    have hnd2 : (kv.1 :: dict_keys rest).Nodup := hnd
    have hcons := List.nodup_cons.mp hnd2
    rcases List.mem_cons.mp hp with h1 | h1 <;> rcases List.mem_cons.mp hq with h2 | h2
    · exact congrArg Prod.snd (h1.trans h2.symm)
    · exfalso
      refine hcons.1 ?_
      have hk : kv.1 = s := by rw [← h1]
      rw [hk]
      exact List.mem_map_of_mem _ h2
    · exfalso
      refine hcons.1 ?_
      have hk : kv.1 = s := by rw [← h2]
      rw [hk]
      exact List.mem_map_of_mem _ h1
    · exact ih hcons.2 h1 h2

/-- Values of a good dict carry its keys as name keys. -/
theorem map_nameKey_values (d : PluginDict)
    (h : ∀ kv ∈ d, kv.2.name = some kv.1 ∧ kv.1 ≠ "") :
    (d.map (fun kv => kv.2)).map nameKey = dict_keys d := by
  unfold dict_keys
  rw [List.map_map]
  refine List.map_congr_left (fun kv hkv => ?_)
  simp [nameKey, (h kv hkv).1]

/-- Keys correspond to stored pairs. -/
theorem mem_dict_keys_iff (d : PluginDict) (n : String) :
    n ∈ dict_keys d ↔ ∃ v, (n, v) ∈ d := by
  unfold dict_keys
  rw [List.mem_map]
  constructor
  · rintro ⟨kv, hkv, hk⟩
    refine ⟨kv.2, ?_⟩
    have hpair : (n, kv.2) = kv := by rw [← hk]
    rw [hpair]
    exact hkv
  · rintro ⟨v, hv⟩
    exact ⟨(n, v), hv, rfl⟩

/-- Membership in the truthy names of a plugin list. -/
theorem mem_truthy_names (X : List Plugin) (t : String) :
    t ∈ truthy_names X ↔ ∃ p ∈ X, p.name = some t ∧ t ≠ "" := by
  unfold truthy_names
  rw [List.mem_filterMap]
  constructor
  · rintro ⟨p, hp, hf⟩
    refine ⟨p, hp, ?_⟩
    cases hn : p.name with
    | none => rw [hn] at hf; simp at hf
    | some s =>
      rw [hn] at hf
      by_cases hsd : s = ""
      · simp [hsd] at hf
      · simp [hsd] at hf
        constructor
        · rw [hf]
        · rw [← hf]; exact hsd
  · rintro ⟨p, hp, hname, ht⟩
    refine ⟨p, hp, ?_⟩
    rw [hname]
    simp [ht]

/-- Truthiness of an optional name unpacked. -/
theorem truthyOpt_iff (o : Option String) :
    truthyOpt o = true ↔ ∃ s, o = some s ∧ s ≠ "" := by
  cases o <;> simp [truthyOpt]

/-- On a list of truthy, pairwise-distinct names whose keys are fresh for the
dict, the first merge loop appends the self-keyed pairs in order. -/
theorem add_existing_pairs (l : List Plugin) :
    ∀ d : PluginDict,
      (∀ p ∈ l, p.name = some (nameKey p) ∧ nameKey p ≠ "") →
      (l.map nameKey).Nodup →
      (∀ p ∈ l, nameKey p ∉ dict_keys d) →
      add_existing d l = d ++ l.map (fun p => (nameKey p, p)) := by
  induction l with
  | nil => intro d _ _ _; simp [add_existing]
  | cons p rest ih =>
    intro d hnames hnd hdisj
    have hp := (hnames p (List.mem_cons_self p rest)).1
    have hs : nameKey p ≠ "" := (hnames p (List.mem_cons_self p rest)).2
    have hfresh : nameKey p ∉ dict_keys d := hdisj p (List.mem_cons_self p rest)
    have hnd2 : (nameKey p :: rest.map nameKey).Nodup := hnd
    have hndc := List.nodup_cons.mp hnd2
    rw [add_existing_cons_some d p rest (nameKey p) hp hs]
    have hset : dict_set d (nameKey p) p = d ++ [(nameKey p, p)] := by
      unfold dict_set
      rw [if_neg (fun h => hfresh ((any_key_iff d (nameKey p)).mp h))]
    rw [hset]
    rw [ih (d ++ [(nameKey p, p)])
      (fun q hq => hnames q (List.mem_cons_of_mem p hq)) hndc.2 ?_]
    · simp
    · intro q hq
      have hkeq : dict_keys (d ++ [(nameKey p, p)]) = dict_keys d ++ [nameKey p] := by
        simp [dict_keys]
      rw [hkeq]
      simp only [List.mem_append, List.mem_singleton]
      rintro (h | h)
      · exact hdisj q (List.mem_cons_of_mem p hq) h
      · have hqm : nameKey q ∈ rest.map nameKey := List.mem_map_of_mem _ hq
        rw [h] at hqm
        exact hndc.1 hqm

/-- Output membership of the merge corresponds to dict membership. -/
theorem mem_merge_plugins_iff (ex new : List Plugin) (p : Plugin) :
    p ∈ merge_plugins ex new ↔ ∃ k, (k, p) ∈ add_new (add_existing [] ex) new := by
  unfold merge_plugins
  rw [(List.perm_insertionSort pluginLE _).mem_iff]
  rw [List.mem_map]
  constructor
  · rintro ⟨kv, hkv, hkvp⟩
    refine ⟨kv.1, ?_⟩
    have hpair : (kv.1, p) = kv := by rw [← hkvp]
    rw [hpair]
    exact hkv
  · rintro ⟨k, hk⟩
    exact ⟨(k, p), hk, rfl⟩

/-- C6: for every pair of input lists, in any input order, the merged output
is sorted by the name key and contains each name at most once — name
uniqueness holds across all entries after any merge. -/
theorem claim_C6_merge_sorted_unique (ex new : List Plugin) :
    List.Sorted pluginLE (merge_plugins ex new) ∧
    ((merge_plugins ex new).map nameKey).Nodup := by
  have hgood : good_dict (add_new (add_existing [] ex) new) :=
    good_dict_add_new new _ (good_dict_add_existing ex [] good_dict_nil)
  constructor
  · exact List.sorted_insertionSort pluginLE _
  · have hperm :
        ((merge_plugins ex new).map nameKey).Perm
          (((add_new (add_existing [] ex) new).map (fun kv => kv.2)).map nameKey) :=
      (List.perm_insertionSort pluginLE _).map nameKey
    rw [map_nameKey_values _ hgood.2] at hperm
    exact hperm.nodup_iff.mpr hgood.1

/-- C10: the merge silently drops every entry — from the existing list or the
incoming list — whose name is missing or empty: every output entry has a
present, non-empty name; and among existing entries sharing the same name the
later one in list order replaces the earlier: it is in the output and it is
the only output entry carrying that name. -/
theorem claim_C10_merge_drop_and_replace :
    (∀ (ex new : List Plugin), ∀ p ∈ merge_plugins ex new,
      ∃ s, p.name = some s ∧ s ≠ "") ∧
    (∀ (ex new : List Plugin) (s : String) (p : Plugin), s ≠ "" →
      (ex.filter (fun q => q.name = some s)).getLast? = some p →
      p ∈ merge_plugins ex new ∧
        ∀ q ∈ merge_plugins ex new, q.name = some s → q = p) := by
  constructor
  · intro ex new p hp
    have hgood : good_dict (add_new (add_existing [] ex) new) :=
      good_dict_add_new new _ (good_dict_add_existing ex [] good_dict_nil)
    rcases (mem_merge_plugins_iff ex new p).mp hp with ⟨k, hk⟩
    have h := hgood.2 (k, p) hk
    exact ⟨k, h.1, h.2⟩
  · intro ex new s p hs hlast
    have hgood : good_dict (add_new (add_existing [] ex) new) :=
      good_dict_add_new new _ (good_dict_add_existing ex [] good_dict_nil)
    have hdict : (s, p) ∈ add_new (add_existing [] ex) new :=
      mem_add_new_of_mem new _ (s, p) (mem_add_existing_getLast ex [] s p hs hlast)
    refine ⟨(mem_merge_plugins_iff ex new p).mpr ⟨s, hdict⟩, ?_⟩
    intro q hq hqname
    rcases (mem_merge_plugins_iff ex new q).mp hq with ⟨k, hk⟩
    have hkq := hgood.2 (k, q) hk
    have hks : k = s := Option.some.inj (hkq.1.symm.trans hqname)
    subst hks
    exact eq_of_mem_nodup_keys _ hgood.1 k q p hk hdict

/-- Witness for C10 at a concrete merge: among the existing entries named
"a", the later one (payload old2) is the entry the merge keeps, it is the
unique "a"-named output entry, and it indeed carries a non-empty name. -/
theorem claim_C10_merge_drop_and_replace_witness :
    Plugin.mk (some "a") "old2" ∈ merge_plugins
      [⟨some "a", "old1"⟩, ⟨none, "x"⟩, ⟨some "", "y"⟩, ⟨some "a", "old2"⟩]
      [⟨some "a", "new"⟩] ∧
    (∃ s, (Plugin.mk (some "a") "old2").name = some s ∧ s ≠ "") := by
  have h2 := claim_C10_merge_drop_and_replace.2
    [⟨some "a", "old1"⟩, ⟨none, "x"⟩, ⟨some "", "y"⟩, ⟨some "a", "old2"⟩]
    [⟨some "a", "new"⟩] "a" ⟨some "a", "old2"⟩ (by decide) (by decide)
  exact ⟨h2.1, claim_C10_merge_drop_and_replace.1 _ _ _ h2.1⟩

/-- C5 counterexample: merging a list with itself does not preserve the name
set when an entry carries an empty-string name — the merge drops the entry,
so merge(X, X) has an empty name set while X's name set is the singleton
empty string. -/
theorem claim_C5_counterexample :
    plugin_names (merge_plugins [⟨some "", "d"⟩] [⟨some "", "d"⟩]) = [] ∧
    plugin_names [(⟨some "", "d"⟩ : Plugin)] = [""] := by decide

/-- C5 (amended): the idempotence claims hold with the proviso forced by the
counterexample. For every list X whose entries all carry a truthy (present,
non-empty) name, merging X with itself yields the same set of names as X; and
for all lists A and B without restriction, merging merge(A, B) with A again
yields exactly merge(A, B) — an incoming entry whose name is already occupied
is dropped and the existing entry kept unchanged. -/
theorem claim_C5_merge_idempotent_amended :
    (∀ X : List Plugin, (∀ p ∈ X, truthyOpt p.name = true) →
      ∀ n, n ∈ plugin_names (merge_plugins X X) ↔ n ∈ plugin_names X) ∧
    (∀ A B : List Plugin,
      merge_plugins (merge_plugins A B) A = merge_plugins A B) := by
  constructor
  · intro X hX n
    have hgood : good_dict (add_new (add_existing [] X) X) :=
      good_dict_add_new X _ (good_dict_add_existing X [] good_dict_nil)
    constructor
    · intro hn
      rcases List.mem_filterMap.mp hn with ⟨p, hp, hpn⟩
      rcases (mem_merge_plugins_iff X X p).mp hp with ⟨k, hk⟩
      have h := hgood.2 (k, p) hk
      have hkn : k = n := Option.some.inj (h.1.symm.trans hpn)
      subst hkn
      have hkmem : k ∈ dict_keys (add_new (add_existing [] X) X) :=
        (mem_dict_keys_iff _ k).mpr ⟨p, hk⟩
      rw [mem_keys_add_new, mem_keys_add_existing] at hkmem
      have hkt : k ∈ truthy_names X := by
        rcases hkmem with (h1 | h1) | h1
        · simp [dict_keys] at h1
        · exact h1
        · exact h1
      rcases (mem_truthy_names X k).mp hkt with ⟨q, hq, hqn, _⟩
      exact List.mem_filterMap.mpr ⟨q, hq, hqn⟩
    · intro hn
      rcases List.mem_filterMap.mp hn with ⟨p, hp, hpn⟩
      have hne : n ≠ "" := by
        rcases (truthyOpt_iff p.name).mp (hX p hp) with ⟨s, hse, hsne⟩
        have hsn : s = n := Option.some.inj (hse.symm.trans hpn)
        rw [← hsn]
        exact hsne
      have hnt : n ∈ truthy_names X := (mem_truthy_names X n).mpr ⟨p, hp, hpn, hne⟩
      have hkeys : n ∈ dict_keys (add_new (add_existing [] X) X) := by
        rw [mem_keys_add_new, mem_keys_add_existing]
        exact Or.inr hnt
      rcases (mem_dict_keys_iff _ n).mp hkeys with ⟨v, hv⟩
      have hvm : v ∈ merge_plugins X X := (mem_merge_plugins_iff X X v).mpr ⟨n, hv⟩
      have hvn : v.name = some n := (hgood.2 (n, v) hv).1
      exact List.mem_filterMap.mpr ⟨v, hvm, hvn⟩
  · intro A B
    have hgoodAB : good_dict (add_new (add_existing [] A) B) :=
      good_dict_add_new B _ (good_dict_add_existing A [] good_dict_nil)
    have hMnames : ∀ p ∈ merge_plugins A B,
        p.name = some (nameKey p) ∧ nameKey p ≠ "" := by
      intro p hp
      rcases (mem_merge_plugins_iff A B p).mp hp with ⟨k, hk⟩
      have h := hgoodAB.2 (k, p) hk
      have h1 : p.name = some k := h.1
      have hnk : nameKey p = k := by simp [nameKey, h1]
      rw [hnk]
      exact ⟨h1, h.2⟩
    have hMnodup : ((merge_plugins A B).map nameKey).Nodup := by
      have hperm2 :
          ((merge_plugins A B).map nameKey).Perm
            (((add_new (add_existing [] A) B).map (fun kv => kv.2)).map nameKey) :=
        (List.perm_insertionSort pluginLE _).map nameKey
      rw [map_nameKey_values _ hgoodAB.2] at hperm2
      exact hperm2.nodup_iff.mpr hgoodAB.1
    have hMsorted : List.Sorted pluginLE (merge_plugins A B) :=
      List.sorted_insertionSort pluginLE _
    have hd1 : add_existing [] (merge_plugins A B) =
        (merge_plugins A B).map (fun p => (nameKey p, p)) := by
      have h := add_existing_pairs (merge_plugins A B) [] hMnames hMnodup
        (by intro q hq; simp [dict_keys])
      simpa using h
    have hkeys1 : dict_keys (add_existing [] (merge_plugins A B)) =
        (merge_plugins A B).map nameKey := by
      rw [hd1]
      unfold dict_keys
      rw [List.map_map]
      rfl
    have hsub : ∀ t ∈ truthy_names A,
        t ∈ dict_keys (add_existing [] (merge_plugins A B)) := by
      intro t ht
      rw [hkeys1]
      have htk : t ∈ dict_keys (add_new (add_existing [] A) B) := by
        rw [mem_keys_add_new, mem_keys_add_existing]
        exact Or.inl (Or.inr ht)
      rcases (mem_dict_keys_iff _ t).mp htk with ⟨v, hv⟩
      have hvm : v ∈ merge_plugins A B := (mem_merge_plugins_iff A B v).mpr ⟨t, hv⟩
      have hv1 : v.name = some t := (hgoodAB.2 (t, v) hv).1
      have hvn : nameKey v = t := by simp [nameKey, hv1]
      rw [← hvn]
      exact List.mem_map_of_mem _ hvm
    have hnoop : add_new (add_existing [] (merge_plugins A B)) A =
        add_existing [] (merge_plugins A B) :=
      add_new_eq_self A _ hsub
    show List.insertionSort pluginLE
        ((add_new (add_existing [] (merge_plugins A B)) A).map (fun kv => kv.2)) =
      merge_plugins A B
    rw [hnoop, hd1, List.map_map]
    have hid : ((fun kv : String × Plugin => kv.2) ∘ (fun p => (nameKey p, p))) =
        (id : Plugin → Plugin) := rfl
    rw [hid, List.map_id]
    exact List.Sorted.insertionSort_eq hMsorted

/-- Witness for C5 (amended) at concrete lists: a truthy singleton merged
with itself keeps its name set, and re-merging merge(A, B) with A is the
identity on a concrete A and B. -/
theorem claim_C5_merge_idempotent_amended_witness :
    (∀ n, n ∈ plugin_names
        (merge_plugins [(⟨some "a", "x"⟩ : Plugin)] [⟨some "a", "x"⟩]) ↔
      n ∈ plugin_names [(⟨some "a", "x"⟩ : Plugin)]) ∧
    merge_plugins
        (merge_plugins [(⟨some "a", "x"⟩ : Plugin)] [⟨some "b", "y"⟩])
        [⟨some "a", "x"⟩] =
      merge_plugins [(⟨some "a", "x"⟩ : Plugin)] [⟨some "b", "y"⟩] :=
  ⟨claim_C5_merge_idempotent_amended.1 [⟨some "a", "x"⟩] (by decide),
   claim_C5_merge_idempotent_amended.2 [⟨some "a", "x"⟩] [⟨some "b", "y"⟩]⟩

/-! ### scripts/fetch_external_skills.py : SkillFetcher (Orchestrator) -/

/-- Per-package world as the orchestrator observes it: the configured id and
target folder, whether the target folder already exists on disk before the
run, and oracles for the outcomes of the external steps — the GitHub fetch
into the temporary directory, the validation of the temporary directory, and
the in-place re-validation of the target directory after processing. -/
structure SkillSim where
  id : String
  targetFolder : String
  targetExists : Bool
  fetchOk : Bool
  validOk : Bool
  postValid : Bool
deriving Repr, DecidableEq

/-- Run statistics of the orchestrator (self.stats). -/
structure RunStats where
  total : Nat
  successful : Nat
  failed : Nat
  skipped : Nat
  errors : List String
deriving Repr, DecidableEq

/-- Stats as initialised in SkillFetcher.__init__. -/
def init_stats : RunStats := ⟨0, 0, 0, 0, []⟩

/-- Model of SkillFetcher.fetch_skill for one package under the run flags
force and dry_run: an existing target with force unset increments skipped and
returns True without fetching; dry-run returns True changing nothing;
otherwise a failing GitHub fetch or an invalid temporary directory appends an
error, increments failed and returns False (the temporary directory is
cleaned up in every branch), while a clean fetch-validate-move increments
successful and returns True. -/
def fetch_skill_sim (force dryRun : Bool) (s : SkillSim) (st : RunStats) :
    Bool × RunStats :=
  if s.targetExists && !force then
    (true, { st with skipped := st.skipped + 1 })
  else if dryRun then
    (true, st)
  else if !s.fetchOk then
    (false,
      { st with
          failed := st.failed + 1,
          errors := st.errors ++
            ["Failed to fetch " ++ s.id ++ ": GitHub fetch failed"] })
  else if !s.validOk then
    (false,
      { st with
          failed := st.failed + 1,
          errors := st.errors ++
            ["Failed to fetch " ++ s.id ++ ": Validation failed"] })
  else
    (true, { st with successful := st.successful + 1 })

/-- Whether the target path exists right after fetch_skill returned True: a
skipped target existed already, a dry run wrote nothing, and a fresh fetch
moved the temporary directory into place. -/
def target_exists_after (force dryRun : Bool) (s : SkillSim) : Bool :=
  if s.targetExists && !force then true
  else if dryRun then s.targetExists
  else true

/-- Loop of SkillFetcher.fetch_all_skills: each package runs fetch_skill; on
a True return, if the target path exists, the target is re-validated in place
and, when valid, the package id is recorded in the metadata dict (keyed by
id, so an already-present id keeps its place). The id list models the dict's
keys in insertion order. -/
def fetch_all_loop (force dryRun : Bool) :
    List SkillSim → RunStats → List String → RunStats × List String
  | [], st, ids => (st, ids)
  | s :: rest, st, ids =>
    let r := fetch_skill_sim force dryRun s st
    let ids2 :=
      if r.1 && target_exists_after force dryRun s && s.postValid then
        if ids.contains s.id then ids else ids ++ [s.id]
      else ids
    fetch_all_loop force dryRun rest r.2 ids2

/-- Model of SkillFetcher.fetch_all_skills: total is set to the number of
packages before the loop starts from the fetcher's current stats. -/
def fetch_all_skills_sim (force dryRun : Bool) (skills : List SkillSim)
    (st0 : RunStats) : RunStats × List String :=
  fetch_all_loop force dryRun skills { st0 with total := skills.length } []

/-- Model of SkillFetcher.run after a successful configuration load and
environment validation, with no skill-id filter: check_conflicts collects
every target folder that already exists on disk (when force is unset); if any
conflict was found and force is unset, run returns exit code 1 before any
package is processed; otherwise all packages are fetched and the exit code is
0 exactly when the failed counter is 0. The marketplace update, attempted
when metadata was collected and not in dry-run mode, does not influence the
exit code. The result is (exit code, final stats, metadata ids). -/
def run_sim (force dryRun : Bool) (skills : List SkillSim) :
    Nat × RunStats × List String :=
  let conflicts := (skills.filter
    (fun s => s.targetExists && !force)).map (fun s => s.targetFolder)
  if !conflicts.isEmpty && !force then
    (1, init_stats, [])
  else
    let r := fetch_all_skills_sim force dryRun skills init_stats
    (if r.1.failed = 0 then 0 else 1, r.1, r.2)

/-- C2 counterexample: in the claimed scenario — package A's target folder
already exists, force-refetch is false, package B would fetch and validate
cleanly — the run never reaches the skipped-exists state: check_conflicts
sees A's existing target and run returns exit code 1 with untouched stats
(total = 0, successful = 0) and no package processed, contradicting the
claimed total = 2 and successful = 2. -/
theorem claim_C2_counterexample :
    run_sim false false
      [⟨"A", "a", true, true, true, true⟩, ⟨"B", "b", false, true, true, true⟩]
      = (1, init_stats, []) := by decide

/-- Metadata ids already collected survive the rest of the loop. -/
theorem fetch_all_loop_ids_mono (force dryRun : Bool) (l : List SkillSim) :
    ∀ (st : RunStats) (ids : List String) (x : String), x ∈ ids →
      x ∈ (fetch_all_loop force dryRun l st ids).2 := by
  induction l with
  | nil => intro st ids x hx; exact hx
  | cons s rest ih =>
    intro st ids x hx
    simp only [fetch_all_loop]
    refine ih _ _ x ?_
    by_cases h1 : ((fetch_skill_sim force dryRun s st).1
        && target_exists_after force dryRun s && s.postValid) = true
    · rw [if_pos h1]
      by_cases h2 : ids.contains s.id = true
      · rw [if_pos h2]; exact hx
      · rw [if_neg h2]; exact List.mem_append_left _ hx
    · rw [if_neg h1]; exact hx

/-- Packages whose processing succeeds with an existing, validly re-validated
target contribute their id to the metadata batch, whatever the accumulated
state. -/
theorem fetch_all_loop_mem_of_ok (force dryRun : Bool) (l : List SkillSim)
    (s : SkillSim)
    (h1 : ∀ st : RunStats, (fetch_skill_sim force dryRun s st).1 = true)
    (h2 : target_exists_after force dryRun s = true)
    (h3 : s.postValid = true) :
    s ∈ l → ∀ (st : RunStats) (ids : List String),
      s.id ∈ (fetch_all_loop force dryRun l st ids).2 := by
  induction l with
  | nil => intro hmem; simp at hmem
  | cons t rest ih =>
    intro hmem st ids
    rcases List.mem_cons.mp hmem with hst | hst
    · subst hst
      simp only [fetch_all_loop]
      rw [h1 st, h2, h3, if_pos (show (true && true && true) = true from rfl)]
      by_cases hc : ids.contains s.id = true
      · rw [if_pos hc]
        exact fetch_all_loop_ids_mono force dryRun rest _ _ s.id
          (List.mem_of_elem_eq_true hc)
      · rw [if_neg hc]
        exact fetch_all_loop_ids_mono force dryRun rest _ _ s.id
          (List.mem_append_right _ (by simp))
    · simp only [fetch_all_loop]
      exact ih hst _ _

/-- Loop form of the C9 property: a package with an existing, valid target
(and force unset) contributes its id whatever the accumulated state. -/
theorem fetch_all_loop_mem_of_skipped (dryRun : Bool) (l : List SkillSim)
    (s : SkillSim) (hex : s.targetExists = true) (hpv : s.postValid = true) :
    s ∈ l → ∀ (st : RunStats) (ids : List String),
      s.id ∈ (fetch_all_loop false dryRun l st ids).2 := by
  refine fetch_all_loop_mem_of_ok false dryRun l s ?_ ?_ hpv
  · intro st
    unfold fetch_skill_sim
    rw [if_pos (by rw [hex]; rfl)]
  · unfold target_exists_after
    rw [if_pos (by rw [hex]; rfl)]

/-- C9: a package that fetch_skill skips because its target folder already
exists while force-refetch is false is nevertheless re-validated in place by
fetch_all_skills, and when its existing manifest is valid its id is recorded
in the metadata batch that is later passed to the registry update — skipped
packages can contribute registry entries, not only freshly fetched ones. -/
theorem claim_C9_skipped_still_registered
    (skills : List SkillSim) (dryRun : Bool) (s : SkillSim)
    (hmem : s ∈ skills) (hex : s.targetExists = true) (hpv : s.postValid = true) :
    s.id ∈ (fetch_all_skills_sim false dryRun skills init_stats).2 := by
  unfold fetch_all_skills_sim
  exact fetch_all_loop_mem_of_skipped dryRun skills s hex hpv hmem _ _

/-- C2 (amended): with force-refetch false and A's target folder already
existing on disk, the run aborts at the pre-fetch conflict check with exit
code 1, untouched all-zero stats and no collected metadata — neither package
reaches a terminal fetch state; when the per-package loop is invoked directly
on A and B (bypassing the conflict check), A ends skipped-exists (fetch_skill
returns True and increments only the skipped counter) and B ends
fetched-and-registered, and the final stats are total = 2, successful = 1,
failed = 0, skipped = 1 with no errors: a skip increments the skipped
counter, not the successful counter, and counts as non-failure only through
the failed counter and the exit code. -/
theorem claim_C2_amended (A B : SkillSim)
    (hA : A.targetExists = true) (hB : B.targetExists = false)
    (hBf : B.fetchOk = true) (hBv : B.validOk = true) (hBp : B.postValid = true) :
    run_sim false false [A, B] = (1, init_stats, []) ∧
    (fetch_all_skills_sim false false [A, B] init_stats).1 =
      ⟨2, 1, 0, 1, []⟩ ∧
    (fetch_skill_sim false false A init_stats).1 = true ∧
    (fetch_skill_sim false false A init_stats).2.skipped = 1 ∧
    B.id ∈ (fetch_all_skills_sim false false [A, B] init_stats).2 := by
  have hstepA : ∀ st : RunStats, fetch_skill_sim false false A st =
      (true, { st with skipped := st.skipped + 1 }) := by
    intro st
    unfold fetch_skill_sim
    rw [if_pos (by rw [hA]; rfl)]
  have hstepB : ∀ st : RunStats, fetch_skill_sim false false B st =
      (true, { st with successful := st.successful + 1 }) := by
    intro st
    unfold fetch_skill_sim
    rw [hB, hBf, hBv]
    simp
  refine ⟨?_, ?_, ?_, ?_, ?_⟩
  · simp only [run_sim]
    rw [show ([A, B].filter (fun s => s.targetExists && !false)).map
        (fun s => s.targetFolder) = [A.targetFolder] from by
      simp [List.filter_cons, hA, hB]]
    rfl
  · unfold fetch_all_skills_sim
    simp only [fetch_all_loop, List.length_cons, List.length_nil]
    rw [hstepA, hstepB]
    rfl
  · rw [hstepA]
  · rw [hstepA]
    rfl
  · unfold fetch_all_skills_sim
    refine fetch_all_loop_mem_of_ok false false [A, B] B ?_ ?_ hBp (by simp) _ _
    · intro st
      rw [hstepB]
    · unfold target_exists_after
      rw [hB]
      simp

/-- Witness for C2 (amended) at two concrete packages. -/
theorem claim_C2_amended_witness :
    run_sim false false
      [⟨"A", "a", true, true, true, true⟩, ⟨"B", "b", false, true, true, true⟩]
      = (1, init_stats, []) ∧
    (fetch_all_skills_sim false false
      [⟨"A", "a", true, true, true, true⟩, ⟨"B", "b", false, true, true, true⟩]
      init_stats).1 = ⟨2, 1, 0, 1, []⟩ ∧
    (fetch_skill_sim false false ⟨"A", "a", true, true, true, true⟩ init_stats).1
      = true ∧
    (fetch_skill_sim false false ⟨"A", "a", true, true, true, true⟩
      init_stats).2.skipped = 1 ∧
    "B" ∈ (fetch_all_skills_sim false false
      [⟨"A", "a", true, true, true, true⟩, ⟨"B", "b", false, true, true, true⟩]
      init_stats).2 :=
  claim_C2_amended ⟨"A", "a", true, true, true, true⟩
    ⟨"B", "b", false, true, true, true⟩ rfl rfl rfl rfl rfl

/-- Witness for C9: package A with an existing, valid target is skipped yet
its id appears in the collected metadata batch. -/
theorem claim_C9_skipped_still_registered_witness :
    "A" ∈ (fetch_all_skills_sim false false
      [⟨"A", "a", true, true, true, true⟩, ⟨"B", "b", false, true, true, true⟩]
      init_stats).2 :=
  claim_C9_skipped_still_registered
    [⟨"A", "a", true, true, true, true⟩, ⟨"B", "b", false, true, true, true⟩]
    false ⟨"A", "a", true, true, true, true⟩ (by decide) rfl rfl

end SkillsVault
